import Mathlib

/-!
Verification of the glossary-translation core of `src/pages/api/translate.ts`.

JavaScript strings are modelled as `List Char` (`Str`).  `toLowerCase` is
modelled as per-character ASCII lowercasing (`Char.toLower`), `trim` as
stripping ASCII whitespace on both ends, and string `length` as character
count; non-ASCII case mapping and surrogate-pair lengths are outside the
model.  The word-boundary regular expression built by the engine
(`new RegExp ... \b term \b ... with flags g and i`, the term escaped so it is
matched literally) is modelled by an explicit left-to-right scanner with
JavaScript `\b` semantics: a boundary sits between two adjacent positions
exactly when one side is a word character `[A-Za-z0-9_]` and the other is not
(ends of the string count as non-word).  `String.replace` with the `g` flag is
modelled as the same scan replacing each non-overlapping match, resuming right
after a match; dollar escape sequences in the replacement string are not
modelled (replacements are inserted literally).
-/

/-- A JavaScript string, modelled as its list of characters. -/
abbrev Str := List Char

/-- `s.toLowerCase()` (ASCII model). -/
def lowerL (s : Str) : Str := s.map Char.toLower

/-- ASCII whitespace recognised by the model of `trim`. -/
def isJsSpace (c : Char) : Bool :=
  c == ' ' || c == '\t' || c == '\n' || c == '\r' || c == Char.ofNat 11 || c == Char.ofNat 12

/-- `s.trim()` (ASCII model): drop whitespace at both ends. -/
def trimL (s : Str) : Str :=
  ((s.dropWhile isJsSpace).reverse.dropWhile isJsSpace).reverse

/-- A regex word character, `[A-Za-z0-9_]`, as in JavaScript `\w` / `\b`. -/
def isWordChar (c : Char) : Bool := c.isAlpha || c.isDigit || c == '_'

/-- Word-character test lifted to an optional character; the absent character
(start or end of the string) counts as non-word. -/
def isWordO : Option Char → Bool
  | none => false
  | some c => isWordChar c

/-- The last character of `l`, or `prev` when `l` is empty.  Used to track the
character immediately preceding a scan position. -/
def lastO (prev : Option Char) : Str → Option Char
  | [] => prev
  | c :: rest => lastO (some c) rest

/-- Boolean test that `needle` is a prefix of `s`. -/
def isPrefB (needle s : Str) : Bool :=
  decide (s.take needle.length = needle) && decide (needle.length ≤ s.length)

/-- Boolean test that `needle` occurs somewhere in `hay`
(JavaScript `hay.includes(needle)`). -/
def includesB (needle : Str) : Str → Bool
  | [] => isPrefB needle []
  | c :: rest => isPrefB needle (c :: rest) || includesB needle rest

/-- One attempted match of the word-boundary regex at the current scan
position: `prev` is the character just before the position, `s` the remaining
text.  The escaped term must match literally (case-insensitively) and a `\b`
boundary must hold on each side. -/
def wbMatchAt (term : Str) (prev : Option Char) (s : Str) : Bool :=
  isPrefB (lowerL term) (lowerL s)
    && (isWordO prev != isWordO s.head?)
    && (isWordO (lastO prev (s.take term.length)) != isWordO (s.drop term.length).head?)

/-- `regex.test(text)` for the word-boundary regex: scan every position. -/
def wbTestAux (term : Str) (prev : Option Char) : Str → Bool
  | [] => wbMatchAt term prev []
  | c :: rest => wbMatchAt term prev (c :: rest) || wbTestAux term (some c) rest

/-- `regex.test(text)` for the case-insensitive whole-word pattern of `term`. -/
def wbTest (term text : Str) : Bool := wbTestAux term none text

/-- The scanner behind `text.replace(regex, repl)` with the `g` flag.  The
`skip` counter consumes the remainder of a match that has already been
replaced (the scan resumes after the match, as the regex `lastIndex` does).
An empty term (empty pattern `\b\b`) inserts the replacement at a boundary and
then advances one character, as JavaScript does on empty matches. -/
def wbGo (term repl : Str) : Nat → Option Char → Str → Str
  | 0, prev, [] => if wbMatchAt term prev [] then repl else []
  | _ + 1, _, [] => []
  | n + 1, _, c :: rest => wbGo term repl n (some c) rest
  | 0, prev, c :: rest =>
    if wbMatchAt term prev (c :: rest) then
      match term with
      | [] => repl ++ c :: wbGo term repl 0 (some c) rest
      | _ :: t2 => repl ++ wbGo term repl t2.length (some c) rest
    else c :: wbGo term repl 0 (some c) rest

/-- `text.replace(regex, repl)`: replace every whole-word occurrence. -/
def wbReplaceAll (term repl text : Str) : Str := wbGo term repl 0 none text

/-- The record returned by the substitution engine
(`{ translatedText, hasGlossaryTerms }` in the source). -/
structure SubstitutionResult where
  translatedText : Str
  hasGlossaryTerms : Bool
deriving DecidableEq

/-- The term loop of the substitution engine (source lines 240-273).  For each
term, in order: exact case-insensitive equality replaces the whole text and
stops; otherwise a word-boundary match replaces every whole-word occurrence
and continues; otherwise containment of the term plus the half-length
threshold (the threshold compares against the length of the original input,
`origLen`) replaces the whole text and stops. -/
def substStep (origLen : Nat) : List (Str × Str) → Str → Bool → SubstitutionResult
  | [], t, m => ⟨t, m⟩
  | (k, v) :: rest, t, m =>
    if lowerL t = lowerL k then ⟨v, true⟩
    else if wbTest k t then substStep origLen rest (wbReplaceAll k v t) true
    else if includesB (lowerL k) (lowerL t) && decide (2 * k.length ≥ origLen) then ⟨v, true⟩
    else substStep origLen rest t m

/-- Descending key-length order used to sort glossary terms
(`sort((a, b) => b.length - a.length)`). -/
def entryGE (p q : Str × Str) : Prop := q.1.length ≤ p.1.length

instance : DecidableRel entryGE :=
  fun p q => inferInstanceAs (Decidable (q.1.length ≤ p.1.length))

instance : IsTotal (Str × Str) entryGE :=
  ⟨fun p q => (Nat.le_total q.1.length p.1.length).imp (fun h => h) (fun h => h)⟩

instance : IsTrans (Str × Str) entryGE :=
  ⟨fun _ _ _ h1 h2 => Nat.le_trans h2 h1⟩

/-- Glossary entries sorted by descending key length (longest first). -/
def sortEntries (l : List (Str × Str)) : List (Str × Str) :=
  List.insertionSort entryGE l

/-- The substitution engine (source lines 226-280): an empty glossary map
returns the text unchanged with no match; otherwise the sorted term loop runs
starting from the input text. -/
def translateWithGlossarySubst (text : Str) (glossaryMap : List (Str × Str)) :
    SubstitutionResult :=
  if glossaryMap.isEmpty then ⟨text, false⟩
  else substStep text.length (sortEntries glossaryMap) text false

/-- One row fetched from the terminology store: named fields. -/
structure GlossaryRecord where
  fields : List (String × Str)
deriving DecidableEq

/-- `record.fields[col]` as an optional value. -/
def getField (r : GlossaryRecord) (col : String) : Option Str :=
  (r.fields.find? (fun p => decide (p.1 = col))).map (fun p => p.2)

/-- The candidate column labels for the English source term. -/
def englishColumns : List String :=
  ["English source", "English", "EN", "Source", "english", "english source"]

/-- `s.toLowerCase()` on the `String` type (ASCII model). -/
def lowerS (s : String) : String := String.mk (lowerL s.data)

/-- The candidate column labels for the target-language translation. -/
def translationColumns (targetLanguage : String) : List String :=
  [targetLanguage ++ " translation", targetLanguage, lowerS targetLanguage,
    lowerS targetLanguage ++ " translation", "Translation", "translation"]

/-- The first column of `cols` whose field value is present and non-empty
(the JavaScript truthiness test `if (fields[col])`). -/
def firstTruthy (r : GlossaryRecord) : List String → Option Str
  | [] => none
  | col :: cols =>
    match getField r col with
    | some v => if v.isEmpty then firstTruthy r cols else some v
    | none => firstTruthy r cols

/-- The field normalizer (source lines 186-221): take the first truthy English
column and the first truthy translation column; if both are truthy, the key is
the lowercased then trimmed English value and the value the trimmed
translation. -/
def normalizeRecord (targetLanguage : String) (r : GlossaryRecord) :
    Option (Str × Str) :=
  match firstTruthy r englishColumns, firstTruthy r (translationColumns targetLanguage) with
  | some e, some t => some (trimL (lowerL e), trimL t)
  | _, _ => none

/-- `glossaryMap[key] = value` on a JavaScript object: overwrite in place when
the key exists (keeping its position), otherwise append. -/
def insertEntry (m : List (Str × Str)) (k v : Str) : List (Str × Str) :=
  if m.any (fun p => decide (p.1 = k)) then
    m.map (fun p => if p.1 = k then (k, v) else p)
  else m ++ [(k, v)]

/-- Building the glossary map from the fetched records (source lines 184-222). -/
def buildGlossaryMap (targetLanguage : String) (records : List GlossaryRecord) :
    List (Str × Str) :=
  records.foldl
    (fun m r =>
      match normalizeRecord targetLanguage r with
      | some (k, v) => insertEntry m k v
      | none => m)
    []

/-- The language-to-table-name configuration (source lines 134-143). -/
def tableNames (targetLanguage : String) : Option (List String) :=
  if targetLanguage = "German" then some ["German translations", "German", "DE", "Deutsch"]
  else if targetLanguage = "Spanish" then some ["Spanish translations", "Spanish", "ES", "Español"]
  else if targetLanguage = "Dutch" then some ["Dutch translations", "Dutch", "NL", "Nederlands"]
  else if targetLanguage = "Italian" then some ["Italian translations", "Italian", "IT", "Italiano"]
  else if targetLanguage = "Polish" then some ["Polish translations", "Polish", "PL", "Polski"]
  else if targetLanguage = "Portuguese" then some ["Portuguese translations", "Portuguese", "PT", "Português"]
  else if targetLanguage = "Swedish" then some ["Swedish translations", "Swedish", "SV", "Svenska"]
  else if targetLanguage = "Finnish" then some ["Finnish translations", "Finnish", "FI", "Suomi"]
  else none

/-- The property names that a JavaScript string lookup on an object literal
finds on the prototype chain: the own members of `Object.prototype`.  Each of
these yields a truthy inherited value (a function, or the prototype object for
the `__proto__` accessor). -/
def objectProtoKeys : List String :=
  ["constructor", "hasOwnProperty", "isPrototypeOf", "propertyIsEnumerable",
    "toLocaleString", "toString", "valueOf", "__proto__",
    "__defineGetter__", "__defineSetter__", "__lookupGetter__", "__lookupSetter__"]

/-- `tableNames[targetLanguage] || [targetLanguage]` (source line 145), with
JavaScript property lookup including the prototype chain.  `some cs` is an own
entry of the table (or the single-element fallback when the lookup is
undefined); `none` models a hit on an inherited `Object.prototype` member:
the value is truthy, so the fallback is not taken, but it is not an array and
the subsequent `for...of` over it throws a TypeError before any fetch. -/
def possibleTableNames (targetLanguage : String) : Option (List String) :=
  match tableNames targetLanguage with
  | some cs => some cs
  | none =>
    if targetLanguage ∈ objectProtoKeys then none else some [targetLanguage]

/-- The candidate loop of the table resolver (source lines 151-174).  `fetch`
models one table fetch: `some records` is a transport-level success (response
ok and body parsed), `none` any failure.  Returns the accepted data and table
name (if any) together with the list of names actually fetched. -/
def tryTables (fetch : String → Option (List GlossaryRecord)) :
    List String → Option (List GlossaryRecord × String) × List String
  | [] => (none, [])
  | n :: rest =>
    match fetch n with
    | some d => (some (d, n), [n])
    | none =>
      ((tryTables fetch rest).1, n :: (tryTables fetch rest).2)

/-- The glossary path once a real candidate list exists: run the resolver
loop over it; on success build the map and run the engine, otherwise fail
(the `No glossary table found` throw). -/
def resolveAndSubst (text : Str) (targetLanguage : String)
    (fetch : String → Option (List GlossaryRecord)) (cs : List String) :
    Option SubstitutionResult :=
  match (tryTables fetch cs).1 with
  | none => none
  | some (records, _) =>
    some (translateWithGlossarySubst text (buildGlossaryMap targetLanguage records))

/-- The composed glossary path `translateWithGlossary` (source lines 124-281):
look up the candidate table names, resolve a table, build the map, run the
engine.  `none` models any thrown error the handler catches: the
`GlossaryUnavailable` throw when no candidate table is reachable, and the
TypeError thrown by iterating an inherited prototype member for languages
such as "toString" (no fetch is issued in that case). -/
def translateWithGlossary (text : Str) (targetLanguage : String)
    (fetch : String → Option (List GlossaryRecord)) : Option SubstitutionResult :=
  match possibleTableNames targetLanguage with
  | none => none
  | some cs => resolveAndSubst text targetLanguage fetch cs

/-- The table names the glossary path actually fetches for a language: the
resolver's fetched names when a candidate list exists, and none at all when
the language lookup hits an inherited prototype member (the iteration throws
before the first fetch). -/
def glossaryFetchesIssued (targetLanguage : String)
    (fetch : String → Option (List GlossaryRecord)) : List String :=
  match possibleTableNames targetLanguage with
  | none => []
  | some cs => (tryTables fetch cs).2

/-- The AI translator's response as seen by `translateWithLangdock`:
a transport failure (`!response.ok`, which throws); a transport-level success
whose parsed body has no usable `choices` array, where `data.choices[0]`
throws a TypeError (the optional chaining only starts after the `[0]`
access); or a body with choices, whose `choices[0]?.message?.content` may
still be absent (`none`). -/
inductive LangdockResponse where
  | transportError (status : Nat)
  | okNoChoices
  | ok (content : Option Str)

/-- The quote cleanup of `translateWithLangdock` (source lines 112-118):
strip one symmetric pair of double quotes, then one of single quotes. -/
def cleanQuotes (t : Str) : Str :=
  let t1 :=
    if t.head? = some '"' ∧ t.getLast? = some '"' then (t.drop 1).dropLast else t
  if t1.head? = some (Char.ofNat 39) ∧ t1.getLast? = some (Char.ofNat 39) then
    (t1.drop 1).dropLast
  else t1

/-- `translateWithLangdock` (source lines 85-121): a non-ok response throws;
a body without a usable choices array makes `data.choices[0]` throw a
TypeError, surfaced to the caller (the thrown message is modelled without the
quotes V8 puts around the index); otherwise the trimmed content is used,
falling back to the original input text when the content is missing or trims
to empty (`... ?.trim() || text`), then quotes are stripped and the result
trimmed. -/
def translateWithLangdock (text : Str) (resp : LangdockResponse) :
    Except String Str :=
  match resp with
  | .transportError status => .error ("Langdock API error: " ++ toString status)
  | .okNoChoices => .error "Cannot read properties of undefined (reading 0)"
  | .ok content =>
    let raw :=
      match content with
      | some c => if trimL c = [] then text else trimL c
      | none => text
    .ok (trimL (cleanQuotes raw))

/-- Outcome of the glossary path as observed by the handler: a thrown error
(caught and logged) or an engine result. -/
inductive GlossaryOutcome where
  | failure
  | success (r : SubstitutionResult)

/-- What the handler's translation phase produces: the response payload (ok or
error) and whether the AI fallback was invoked. -/
structure HandlerResult where
  result : Except String Str
  aiInvoked : Bool

/-- The orchestration in the handler (source lines 44-66): use the glossary
result when the flag is set, credentials are present, the glossary path
succeeded and it reports a match; then fall back to the AI translator whenever
the accumulated translation is still the empty string (`if (!finalTranslation)`). -/
def handlerCore (text : Str) (useGlossary credsConfigured : Bool)
    (glossaryOutcome : GlossaryOutcome) (aiResp : LangdockResponse) : HandlerResult :=
  let finalTranslation : Str :=
    if useGlossary && credsConfigured then
      match glossaryOutcome with
      | .success r => if r.hasGlossaryTerms then r.translatedText else []
      | .failure => []
    else []
  if finalTranslation.isEmpty then ⟨translateWithLangdock text aiResp, true⟩
  else ⟨.ok finalTranslation, false⟩

/-- No case-insensitive occurrence of `k` anywhere in `s` (at any position). -/
def noCIOcc (k : Str) : Str → Bool
  | [] => !(isPrefB (lowerL k) (lowerL []))
  | c :: rest => !(isPrefB (lowerL k) (lowerL (c :: rest))) && noCIOcc k rest

/-- No case-insensitive occurrence of `k` starting inside the prefix `pre` of
the text `pre ++ tail`. -/
def noCIOccBefore (k tail : Str) : Str → Bool
  | [] => true
  | c :: pre => !(isPrefB (lowerL k) (lowerL (c :: (pre ++ tail)))) && noCIOccBefore k tail pre

/-- Every position of the text fails the whole-word match of `k`: each
occurrence of the term, if any, lacks a word boundary on some side. -/
def noWBMatchAux (k : Str) (prev : Option Char) : Str → Bool
  | [] => !(wbMatchAt k prev [])
  | c :: rest => !(wbMatchAt k prev (c :: rest)) && noWBMatchAux k (some c) rest

/-- `k` has no whole-word occurrence in `text`. -/
def noWBMatch (k text : Str) : Bool := noWBMatchAux k none text

/-- A fetch oracle that succeeds (with zero records) only for the table name
"German". -/
def fetchGermanOnly : String → Option (List GlossaryRecord) :=
  fun n => if n = "German" then some [] else none

/-! ### Basic facts about the string model -/

theorem length_lowerL (s : Str) : (lowerL s).length = s.length :=
  List.length_map s Char.toLower

theorem lowerL_append (a b : Str) : lowerL (a ++ b) = lowerL a ++ lowerL b :=
  List.map_append Char.toLower a b

theorem isPrefB_iff {n s : Str} :
    isPrefB n s = true ↔ s.take n.length = n ∧ n.length ≤ s.length := by
  simp [isPrefB]

theorem isPrefB_self_append (n y : Str) : isPrefB n (n ++ y) = true := by
  rw [isPrefB_iff]
  exact ⟨List.take_left n y, by simp⟩

theorem isPrefB_nil {n : Str} (h : isPrefB n [] = true) : n = [] := by
  rw [isPrefB_iff] at h
  have h1 := h.1
  simp only [List.take_nil] at h1
  exact h1.symm

theorem includesB_of_isPrefB {n s : Str} (h : isPrefB n s = true) :
    includesB n s = true := by
  cases s with
  | nil => simpa [includesB] using h
  | cons c rest => simp [includesB, h]

theorem includesB_cons_of {n : Str} (c : Char) {rest : Str}
    (h : includesB n rest = true) : includesB n (c :: rest) = true := by
  simp [includesB, h]

theorem includesB_self (n : Str) : includesB n n = true := by
  have h := isPrefB_self_append n []
  rw [List.append_nil] at h
  exact includesB_of_isPrefB h

theorem length_le_of_includesB {n : Str} :
    ∀ {s : Str}, includesB n s = true → n.length ≤ s.length := by
  intro s
  induction s with
  | nil =>
    intro h
    have : n = [] := isPrefB_nil (by simpa [includesB] using h)
    simp [this]
  | cons c rest ih =>
    intro h
    rcases Bool.or_eq_true_iff.mp (by simpa [includesB] using h) with h1 | h2
    · exact (isPrefB_iff.mp h1).2
    · exact Nat.le_trans (ih h2) (by simp)

theorem eq_of_includesB_of_length {n : Str} :
    ∀ {s : Str}, includesB n s = true → n.length = s.length → n = s := by
  intro s
  induction s with
  | nil =>
    intro h _
    exact isPrefB_nil (by simpa [includesB] using h)
  | cons c rest ih =>
    intro h hlen
    rcases Bool.or_eq_true_iff.mp (by simpa [includesB] using h) with h1 | h2
    · have ht := (isPrefB_iff.mp h1).1
      rw [hlen, List.take_length] at ht
      exact ht.symm
    · have := length_le_of_includesB h2
      rw [hlen] at this
      simp at this

theorem wbMatchAt_false_of_noPref {k : Str} {prev : Option Char} {s : Str}
    (h : isPrefB (lowerL k) (lowerL s) = false) : wbMatchAt k prev s = false := by
  simp [wbMatchAt, h]

theorem includesB_of_wbTestAux {k : Str} :
    ∀ {s : Str} {prev : Option Char},
      wbTestAux k prev s = true → includesB (lowerL k) (lowerL s) = true := by
  intro s
  induction s with
  | nil =>
    intro prev h
    have h1 : wbMatchAt k prev [] = true := h
    have h2 := (Bool.and_eq_true _ _).mp ((Bool.and_eq_true _ _).mp h1).1
    simpa [includesB, lowerL] using h2.1
  | cons c rest ih =>
    intro prev h
    rcases Bool.or_eq_true_iff.mp (by simpa [wbTestAux] using h) with h1 | h2
    · have h3 := (Bool.and_eq_true _ _).mp ((Bool.and_eq_true _ _).mp h1).1
      exact includesB_of_isPrefB h3.1
    · have h4 : lowerL (c :: rest) = Char.toLower c :: lowerL rest := rfl
      rw [h4]
      exact includesB_cons_of _ (ih h2)

/-! ### Unfolding equations for the engine -/

theorem substStep_nil (L : Nat) (t : Str) (m : Bool) :
    substStep L [] t m = ⟨t, m⟩ := rfl

theorem substStep_cons (L : Nat) (k v : Str) (rest : List (Str × Str)) (t : Str) (m : Bool) :
    substStep L ((k, v) :: rest) t m =
      if lowerL t = lowerL k then ⟨v, true⟩
      else if wbTest k t then substStep L rest (wbReplaceAll k v t) true
      else if includesB (lowerL k) (lowerL t) && decide (2 * k.length ≥ L) then ⟨v, true⟩
      else substStep L rest t m := rfl

theorem wbGo_zero_nil (term repl : Str) (prev : Option Char) :
    wbGo term repl 0 prev [] = if wbMatchAt term prev [] then repl else [] := rfl

theorem wbGo_succ_cons (term repl : Str) (n : Nat) (p : Option Char) (c : Char) (rest : Str) :
    wbGo term repl (n + 1) p (c :: rest) = wbGo term repl n (some c) rest := rfl

theorem wbGo_zero_cons (term repl : Str) (prev : Option Char) (c : Char) (rest : Str) :
    wbGo term repl 0 prev (c :: rest) =
      if wbMatchAt term prev (c :: rest) then
        match term with
        | [] => repl ++ c :: wbGo term repl 0 (some c) rest
        | _ :: t2 => repl ++ wbGo term repl t2.length (some c) rest
      else c :: wbGo term repl 0 (some c) rest := rfl

theorem wbTestAux_cons (term : Str) (prev : Option Char) (c : Char) (rest : Str) :
    wbTestAux term prev (c :: rest) =
      (wbMatchAt term prev (c :: rest) || wbTestAux term (some c) rest) := rfl

/-! ### The matched flag and the unchanged-text invariant -/

theorem substStep_matched (L : Nat) (es : List (Str × Str)) : ∀ (t : Str),
    (substStep L es t true).hasGlossaryTerms = true := by
  induction es with
  | nil => intro t; rfl
  | cons p rest ih =>
    intro t
    obtain ⟨k, v⟩ := p
    rw [substStep_cons]
    split
    · rfl
    · split
      · exact ih _
      · split
        · rfl
        · exact ih t

theorem substStep_unmatched (L : Nat) (es : List (Str × Str)) : ∀ (t : Str),
    (substStep L es t false).hasGlossaryTerms = false →
    (substStep L es t false).translatedText = t := by
  induction es with
  | nil => intro t _; rfl
  | cons p rest ih =>
    intro t h
    obtain ⟨k, v⟩ := p
    rw [substStep_cons] at h ⊢
    by_cases h1 : lowerL t = lowerL k
    · rw [if_pos h1] at h
      simp at h
    · rw [if_neg h1] at h ⊢
      by_cases h2 : wbTest k t = true
      · rw [if_pos h2] at h
        rw [substStep_matched L rest (wbReplaceAll k v t)] at h
        simp at h
      · rw [if_neg h2] at h ⊢
        by_cases h3 : (includesB (lowerL k) (lowerL t) && decide (2 * k.length ≥ L)) = true
        · rw [if_pos h3] at h
          simp at h
        · rw [if_neg h3] at h ⊢
          exact ih t h

/-! ### Sorting and key uniqueness -/

theorem sortEntries_perm (l : List (Str × Str)) : List.Perm (sortEntries l) l :=
  List.perm_insertionSort entryGE l

theorem sortEntries_sorted (l : List (Str × Str)) :
    List.Sorted entryGE (sortEntries l) :=
  List.sorted_insertionSort entryGE l

theorem keyUnique {k v w : Str} : ∀ {l : List (Str × Str)},
    (k, v) ∈ l → (k, w) ∈ l → (l.map Prod.fst).Nodup → v = w := by
  intro l
  induction l with
  | cons p rest ih =>
    intro hv hw hnd
    rw [List.map_cons, List.nodup_cons] at hnd
    rcases List.mem_cons.mp hv with hv1 | hv2
    · rcases List.mem_cons.mp hw with hw1 | hw2
      · exact (Prod.ext_iff.mp (hv1.trans hw1.symm)).2
      · exfalso
        apply hnd.1
        rw [← hv1]
        simpa using List.mem_map_of_mem Prod.fst hw2
    · rcases List.mem_cons.mp hw with hw1 | hw2
      · exfalso
        apply hnd.1
        rw [← hw1]
        simpa using List.mem_map_of_mem Prod.fst hv2
      · exact ih hv2 hw2 hnd.2
  | nil =>
    intro hv _ _
    cases hv

/-! ### Walking the word-boundary scanner -/

theorem lastO_cons (prev : Option Char) (c : Char) (l : Str) :
    lastO prev (c :: l) = lastO (some c) l := rfl

theorem lastO_of_ne_nil (p q : Option Char) : ∀ {l : Str}, l ≠ [] → lastO p l = lastO q l := by
  intro l h
  cases l with
  | nil => exact absurd rfl h
  | cons c rest => rfl

theorem wbGo_skip (term repl : Str) : ∀ (xs : Str) (prev : Option Char) (s : Str),
    wbGo term repl xs.length prev (xs ++ s) = wbGo term repl 0 (lastO prev xs) s := by
  intro xs
  induction xs with
  | nil => intro prev s; rfl
  | cons c xs ih =>
    intro prev s
    rw [List.cons_append]
    show wbGo term repl (xs.length + 1) prev (c :: (xs ++ s)) = _
    rw [wbGo_succ_cons, lastO_cons]
    exact ih (some c) s

theorem wbGo_noCIOcc (k v : Str) : ∀ (s : Str) (prev : Option Char),
    noCIOcc k s = true → wbGo k v 0 prev s = s := by
  intro s
  induction s with
  | nil =>
    intro prev h
    have h1 : isPrefB (lowerL k) (lowerL ([] : Str)) = false := by
      simpa [noCIOcc] using h
    rw [wbGo_zero_nil, if_neg (ne_true_of_eq_false (wbMatchAt_false_of_noPref h1))]
  | cons c rest ih =>
    intro prev h
    rw [noCIOcc, Bool.and_eq_true, Bool.not_eq_true'] at h
    rw [wbGo_zero_cons, if_neg (ne_true_of_eq_false (wbMatchAt_false_of_noPref h.1))]
    rw [ih (some c) h.2]

theorem wbTestAux_noCIOcc (k : Str) : ∀ (s : Str) (prev : Option Char),
    noCIOcc k s = true → wbTestAux k prev s = false := by
  intro s
  induction s with
  | nil =>
    intro prev h
    have h1 : isPrefB (lowerL k) (lowerL ([] : Str)) = false := by
      simpa [noCIOcc] using h
    show wbMatchAt k prev [] = false
    exact wbMatchAt_false_of_noPref h1
  | cons c rest ih =>
    intro prev h
    rw [noCIOcc, Bool.and_eq_true, Bool.not_eq_true'] at h
    rw [wbTestAux_cons, wbMatchAt_false_of_noPref h.1, ih (some c) h.2]
    rfl

theorem wbMatchAt_head {k w suf : Str} {prev : Option Char} (hk : k ≠ [])
    (hw : lowerL w = lowerL k)
    (b1 : (isWordO prev != isWordO w.head?) = true)
    (b2 : (isWordO (lastO none w) != isWordO suf.head?) = true) :
    wbMatchAt k prev (w ++ suf) = true := by
  have hlen : w.length = k.length := by
    have h := congrArg List.length hw
    simpa [length_lowerL] using h
  have hwne : w ≠ [] := by
    intro hnil
    apply hk
    rw [hnil] at hlen
    exact List.length_eq_zero.mp hlen.symm
  have c1 : isPrefB (lowerL k) (lowerL (w ++ suf)) = true := by
    rw [lowerL_append, ← hw]
    exact isPrefB_self_append _ _
  have c2 : (isWordO prev != isWordO (w ++ suf).head?) = true := by
    cases w with
    | nil => exact absurd rfl hwne
    | cons w0 w2 => exact b1
  have htake : (w ++ suf).take k.length = w := by
    rw [← hlen]
    exact List.take_left w suf
  have hdrop : (w ++ suf).drop k.length = suf := by
    rw [← hlen]
    exact List.drop_left w suf
  have c3 : (isWordO (lastO prev ((w ++ suf).take k.length)) !=
      isWordO ((w ++ suf).drop k.length).head?) = true := by
    rw [htake, hdrop, lastO_of_ne_nil prev none hwne]
    exact b2
  rw [wbMatchAt, c1, c2, c3]
  rfl

theorem wbGo_walk (k v w suf : Str) (hk : k ≠ []) (hw : lowerL w = lowerL k)
    (hsuf : noCIOcc k suf = true)
    (b2 : (isWordO (lastO none w) != isWordO suf.head?) = true) :
    ∀ (pre : Str) (prev : Option Char),
      noCIOccBefore k (w ++ suf) pre = true →
      (isWordO (lastO prev pre) != isWordO w.head?) = true →
      wbGo k v 0 prev (pre ++ (w ++ suf)) = pre ++ (v ++ suf) ∧
      wbTestAux k prev (pre ++ (w ++ suf)) = true := by
  intro pre
  induction pre with
  | nil =>
    intro prev hpre b1
    have hmatch : wbMatchAt k prev (w ++ suf) = true := wbMatchAt_head hk hw b1 b2
    have hlen : w.length = k.length := by
      have h := congrArg List.length hw
      simpa [length_lowerL] using h
    cases w with
    | nil =>
      exfalso
      apply hk
      exact List.length_eq_zero.mp (by simpa using hlen.symm)
    | cons w0 w2 =>
      cases k with
      | nil => exact absurd rfl hk
      | cons k0 k2 =>
        have hlen2 : k2.length = w2.length := by
          simpa using hlen.symm
        have hmatch2 : wbMatchAt (k0 :: k2) prev (w0 :: (w2 ++ suf)) = true := hmatch
        constructor
        · rw [List.nil_append, List.cons_append, wbGo_zero_cons, if_pos hmatch2]
          show v ++ wbGo (k0 :: k2) v k2.length (some w0) (w2 ++ suf) = [] ++ (v ++ suf)
          rw [hlen2, wbGo_skip]
          rw [wbGo_noCIOcc (k0 :: k2) v suf _ hsuf]
          rfl
        · rw [List.nil_append, List.cons_append, wbTestAux_cons, hmatch2]
          rfl
  | cons c pre ih =>
    intro prev hpre b1
    rw [noCIOccBefore, Bool.and_eq_true, Bool.not_eq_true'] at hpre
    have hm : wbMatchAt k prev (c :: (pre ++ (w ++ suf))) = false :=
      wbMatchAt_false_of_noPref hpre.1
    have hb1 : (isWordO (lastO (some c) pre) != isWordO w.head?) = true := b1
    constructor
    · rw [List.cons_append, wbGo_zero_cons, if_neg (ne_true_of_eq_false hm)]
      rw [(ih (some c) hpre.2 hb1).1]
      rfl
    · rw [List.cons_append, wbTestAux_cons, hm]
      rw [(ih (some c) hpre.2 hb1).2]
      rfl

/-! ### The term loop on sorted entries -/

theorem substStep_exact (L : Nat) {k v text : Str} (htext : lowerL text = k) :
    ∀ (ss : List (Str × Str)),
      List.Sorted entryGE ss →
      (ss.map Prod.fst).Nodup →
      (∀ p ∈ ss, lowerL p.1 = p.1) →
      (k, v) ∈ ss →
      substStep L ss text false = ⟨v, true⟩ := by
  intro ss
  induction ss with
  | nil => intro _ _ _ hmem; cases hmem
  | cons p rest ih =>
    intro hsort hnd hlow hmem
    obtain ⟨l, w⟩ := p
    rw [substStep_cons]
    by_cases hlk : l = k
    · subst hlk
      have hv : v = w := keyUnique hmem (List.mem_cons_self _ _) hnd
      have hlow1 : lowerL l = l := hlow (l, w) (List.mem_cons_self _ _)
      rw [if_pos (by rw [htext, hlow1]), hv]
    · have hmem2 : (k, v) ∈ rest := by
        rcases List.mem_cons.mp hmem with h1 | h2
        · exact absurd (Prod.ext_iff.mp h1).1.symm hlk
        · exact h2
      have hklen : text.length = k.length := by
        have h := congrArg List.length htext
        simpa [length_lowerL] using h
      have hllen : text.length ≤ l.length := by
        have hrel := (List.sorted_cons.mp hsort).1 (k, v) hmem2
        calc text.length = k.length := hklen
          _ ≤ l.length := hrel
      have hlowl : lowerL l = l := hlow (l, w) (List.mem_cons_self _ _)
      have hll : ∀ hinc : includesB (lowerL l) (lowerL text) = true, False := by
        intro hinc
        have hle := length_le_of_includesB hinc
        rw [length_lowerL, length_lowerL] at hle
        have heq : (lowerL l).length = (lowerL text).length := by
          rw [length_lowerL, length_lowerL]
          omega
        have h2 := eq_of_includesB_of_length hinc heq
        rw [hlowl, htext] at h2
        exact hlk h2
      have hne : ¬ (lowerL text = lowerL l) := by
        intro he
        exact hll (by rw [he]; exact includesB_self (lowerL l))
      rw [if_neg hne]
      have hwb : wbTest l text = false := by
        cases hw : wbTest l text
        · rfl
        · exact absurd (includesB_of_wbTestAux hw) (fun hx => hll hx)
      rw [if_neg (ne_true_of_eq_false hwb)]
      have hpc : ¬ ((includesB (lowerL l) (lowerL text) && decide (2 * l.length ≥ L)) = true) := by
        intro hc
        exact hll ((Bool.and_eq_true _ _).mp hc).1
      rw [if_neg hpc]
      refine ih (List.sorted_cons.mp hsort).2 ?_ ?_ hmem2
      · rw [List.map_cons, List.nodup_cons] at hnd
        exact hnd.2
      · intro q hq
        exact hlow q (List.mem_cons_of_mem _ hq)

theorem substStep_noOcc (L : Nat) {text : Str} :
    ∀ (ss : List (Str × Str)),
      (∀ p ∈ ss, includesB (lowerL p.1) (lowerL text) = false) →
      substStep L ss text false = ⟨text, false⟩ := by
  intro ss
  induction ss with
  | nil => intro _; rfl
  | cons p rest ih =>
    intro hno
    obtain ⟨l, w⟩ := p
    have hl := hno (l, w) (List.mem_cons_self _ _)
    rw [substStep_cons]
    have hne : ¬ (lowerL text = lowerL l) := by
      intro he
      rw [he] at hl
      rw [includesB_self (lowerL l)] at hl
      cases hl
    rw [if_neg hne]
    have hwb : wbTest l text = false := by
      cases hw : wbTest l text
      · rfl
      · have := includesB_of_wbTestAux hw
        rw [this] at hl
        cases hl
    rw [if_neg (ne_true_of_eq_false hwb)]
    rw [if_neg (by simp [hl])]
    exact ih (fun q hq => hno q (List.mem_cons_of_mem _ hq))

/-! ### The table resolver loop -/

theorem tryTables_tried (fetch : String → Option (List GlossaryRecord)) :
    ∀ (cs : List String), ∃ rest2, cs = (tryTables fetch cs).2 ++ rest2 := by
  intro cs
  induction cs with
  | nil => exact ⟨[], rfl⟩
  | cons n rest ih =>
    cases hfn : fetch n with
    | some d => exact ⟨rest, by simp [tryTables, hfn]⟩
    | none =>
      obtain ⟨r2, hr2⟩ := ih
      refine ⟨r2, ?_⟩
      simpa [tryTables, hfn] using congrArg (List.cons n) hr2

theorem tryTables_success (fetch : String → Option (List GlossaryRecord)) :
    ∀ (cs : List String) (d : List GlossaryRecord) (n : String),
      (tryTables fetch cs).1 = some (d, n) →
      fetch n = some d ∧
        ∃ pre suf, cs = pre ++ n :: suf ∧ (∀ m2 ∈ pre, fetch m2 = none) ∧
          (tryTables fetch cs).2 = pre ++ [n] := by
  intro cs
  induction cs with
  | nil => intro d n h; simp [tryTables] at h
  | cons c rest ih =>
    intro d n h
    cases hfc : fetch c with
    | some d0 =>
      have h2 : (some (d0, c) : Option (List GlossaryRecord × String)) = some (d, n) := by
        simpa [tryTables, hfc] using h
      injection h2 with h3
      have hd : d0 = d := (Prod.ext_iff.mp h3).1
      have hn : c = n := (Prod.ext_iff.mp h3).2
      subst hd
      subst hn
      refine ⟨hfc, [], rest, rfl, by simp, ?_⟩
      simp [tryTables, hfc]
    | none =>
      have h' : (tryTables fetch rest).1 = some (d, n) := by
        simpa [tryTables, hfc] using h
      obtain ⟨hfn, pre, suf, hcs, hpre, htried⟩ := ih d n h'
      refine ⟨hfn, c :: pre, suf, by simp [hcs], ?_, ?_⟩
      · intro m2 hm2
        rcases List.mem_cons.mp hm2 with h1 | h2
        · rw [h1]; exact hfc
        · exact hpre m2 h2
      · simp [tryTables, hfc, htried]

theorem tryTables_none_iff (fetch : String → Option (List GlossaryRecord)) :
    ∀ (cs : List String),
      (tryTables fetch cs).1 = none ↔ ∀ c ∈ cs, fetch c = none := by
  intro cs
  induction cs with
  | nil => simp [tryTables]
  | cons n rest ih =>
    cases hfn : fetch n with
    | some d => simp [tryTables, hfn]
    | none => simp [tryTables, hfn, ih]

/-! ### Building the glossary map -/

theorem mem_insertEntry {x : Str × Str} {m : List (Str × Str)} {k v : Str}
    (h : x ∈ insertEntry m k v) : x = (k, v) ∨ x ∈ m := by
  unfold insertEntry at h
  by_cases hc : m.any (fun p => decide (p.1 = k)) = true
  · rw [if_pos hc] at h
    obtain ⟨p, hp, hpx⟩ := List.mem_map.mp h
    by_cases hpk : p.1 = k
    · rw [if_pos hpk] at hpx
      left
      exact hpx.symm
    · rw [if_neg hpk] at hpx
      right
      rw [← hpx]
      exact hp
  · rw [if_neg hc] at h
    rcases List.mem_append.mp h with h1 | h2
    · right; exact h1
    · left; simpa using h2

theorem mem_buildFold {lang : String} :
    ∀ (rs : List GlossaryRecord) (acc : List (Str × Str)) (x : Str × Str),
      x ∈ rs.foldl
        (fun m r =>
          match normalizeRecord lang r with
          | some (k, v) => insertEntry m k v
          | none => m)
        acc →
      x ∈ acc ∨ ∃ r ∈ rs, normalizeRecord lang r = some x := by
  intro rs
  induction rs with
  | nil => intro acc x h; left; exact h
  | cons r rs ih =>
    intro acc x h
    rw [List.foldl_cons] at h
    cases hn : normalizeRecord lang r with
    | none =>
      rw [hn] at h
      rcases ih acc x h with h1 | ⟨r2, hr2, hn2⟩
      · left; exact h1
      · right; exact ⟨r2, List.mem_cons_of_mem _ hr2, hn2⟩
    | some q =>
      obtain ⟨k, v⟩ := q
      rw [hn] at h
      rcases ih (insertEntry acc k v) x h with h1 | ⟨r2, hr2, hn2⟩
      · rcases mem_insertEntry h1 with h2 | h3
        · right
          refine ⟨r, List.mem_cons_self _ _, ?_⟩
          rw [hn, h2]
        · left; exact h3
      · right; exact ⟨r2, List.mem_cons_of_mem _ hr2, hn2⟩

theorem mem_buildGlossaryMap {lang : String} {records : List GlossaryRecord}
    {x : Str × Str} (h : x ∈ buildGlossaryMap lang records) :
    ∃ r ∈ records, normalizeRecord lang r = some x := by
  unfold buildGlossaryMap at h
  rcases mem_buildFold records [] x h with h1 | h2
  · cases h1
  · exact h2

theorem firstTruthy_ne_nil {r : GlossaryRecord} :
    ∀ {cols : List String} {v : Str}, firstTruthy r cols = some v → v ≠ [] := by
  intro cols
  induction cols with
  | nil => intro v h; cases h
  | cons col cols ih =>
    intro v h
    rw [firstTruthy] at h
    cases hg : getField r col with
    | none =>
      rw [hg] at h
      exact ih h
    | some u =>
      rw [hg] at h
      have h2 : (if u.isEmpty = true then firstTruthy r cols else some u) = some v := h
      by_cases hu : u.isEmpty = true
      · rw [if_pos hu] at h2
        exact ih h2
      · rw [if_neg hu] at h2
        injection h2 with h3
        subst h3
        intro hnil
        subst hnil
        exact hu rfl

theorem normalizeRecord_inv {lang : String} {r : GlossaryRecord} {k v : Str}
    (h : normalizeRecord lang r = some (k, v)) :
    ∃ e t, firstTruthy r englishColumns = some e ∧ e ≠ [] ∧
      firstTruthy r (translationColumns lang) = some t ∧ t ≠ [] ∧
      k = trimL (lowerL e) ∧ v = trimL t := by
  unfold normalizeRecord at h
  cases he : firstTruthy r englishColumns with
  | none =>
    rw [he] at h
    exact Option.noConfusion h
  | some e =>
    cases ht : firstTruthy r (translationColumns lang) with
    | none =>
      rw [he, ht] at h
      exact Option.noConfusion h
    | some t =>
      rw [he, ht] at h
      injection h with h2
      exact ⟨e, t, rfl, firstTruthy_ne_nil he, rfl, firstTruthy_ne_nil ht,
        (Prod.ext_iff.mp h2).1.symm, (Prod.ext_iff.mp h2).2.symm⟩

/-! ### Helper predicates turned into engine facts -/

theorem wbTestAux_of_noWBMatchAux (k : Str) : ∀ (s : Str) (prev : Option Char),
    noWBMatchAux k prev s = true → wbTestAux k prev s = false := by
  intro s
  induction s with
  | nil =>
    intro prev h
    show wbMatchAt k prev [] = false
    simpa [noWBMatchAux, Bool.not_eq_true'] using h
  | cons c rest ih =>
    intro prev h
    rw [noWBMatchAux, Bool.and_eq_true, Bool.not_eq_true'] at h
    rw [wbTestAux_cons, h.1, ih (some c) h.2]
    rfl

/-! ### Claim theorems -/

/-- C1, counterexample to the claim as stated: with the index
mapping "cancel" to "Abbrechen" and the input "cancel " (trailing space),
the lowercased trimmed input equals the key, yet the engine returns
"Abbrechen " (the surrounding whitespace is kept by the word-boundary
replacement), not exactly the key's translation: the engine never trims the
input before the exact-match comparison. -/
theorem c1_counterexample :
    trimL (lowerL "cancel ".data) = "cancel".data ∧
    translateWithGlossarySubst "cancel ".data [("cancel".data, "Abbrechen".data)] =
      ⟨"Abbrechen ".data, true⟩ ∧
    ("Abbrechen ".data : Str) ≠ "Abbrechen".data := by
  refine ⟨by decide, by decide, by decide⟩

/-- C1 (amended): for every glossary index with distinct, lowercased keys and
every input text whose lowercased (but not trimmed) form equals an index key,
the substitution engine returns exactly that key's translation as the whole
output with matched set, stopping at the exact-match short circuit. -/
theorem c1_exact_match_amended (gm : List (Str × Str)) (k v text : Str)
    (hnd : (gm.map Prod.fst).Nodup)
    (hlow : ∀ p ∈ gm, lowerL p.1 = p.1)
    (hmem : (k, v) ∈ gm)
    (htext : lowerL text = k) :
    translateWithGlossarySubst text gm = ⟨v, true⟩ := by
  have hne : gm ≠ [] := by
    intro h
    rw [h] at hmem
    cases hmem
  unfold translateWithGlossarySubst
  rw [if_neg (by simpa [List.isEmpty_iff] using hne)]
  refine substStep_exact text.length htext (sortEntries gm) (sortEntries_sorted gm) ?_ ?_ ?_
  · exact (((sortEntries_perm gm).map Prod.fst).nodup_iff).mpr hnd
  · intro p hp
    exact hlow p ((sortEntries_perm gm).mem_iff.mp hp)
  · exact (sortEntries_perm gm).mem_iff.mpr hmem

/-- Witness for C1: a two-entry lowercase index and the input "Cancel", whose
lowercased form equals the key "cancel"; the engine returns "Abbrechen". -/
theorem c1_witness :
    translateWithGlossarySubst "Cancel".data
        [("cancel".data, "Abbrechen".data), ("ok".data, "OK".data)] =
      ⟨"Abbrechen".data, true⟩ :=
  c1_exact_match_amended _ "cancel".data "Abbrechen".data "Cancel".data
    (by decide) (by decide) (by decide) (by decide)

/-- C2, counterexample to the claim as stated: the term "cat" occurs in
"cats" only with an adjacent word character, yet the engine replaces the whole
input with "Katze": the partial-containment heuristic fires because the term
is at least half as long as the input. -/
theorem c2_counterexample :
    translateWithGlossarySubst "cats".data [("cat".data, "Katze".data)] =
      ⟨"Katze".data, true⟩ := by
  decide

/-- C2 (amended): the word-boundary strategy replaces exactly the whole-word
occurrence of a term and preserves the surrounding text; an occurrence with
adjacent word characters is never replaced by the word-boundary strategy, and
when the term is shorter than half the input the engine leaves such an input
unchanged (otherwise the partial-containment heuristic may replace the whole
input, as the counterexample shows).  First part: a unique case-insensitive
occurrence of the term lying at word boundaries is replaced in place.  Second
part: a text in which the term has no whole-word occurrence and is shorter
than half the text is returned unchanged with no match. -/
theorem c2_word_boundary_amended :
    (∀ k v pre w suf : Str,
      k ≠ [] → Char.ofNat 36 ∉ v → lowerL w = lowerL k →
      noCIOccBefore k (w ++ suf) pre = true →
      noCIOcc k suf = true →
      (isWordO (lastO none pre) != isWordO w.head?) = true →
      (isWordO (lastO none w) != isWordO suf.head?) = true →
      translateWithGlossarySubst (pre ++ (w ++ suf)) [(k, v)] =
        ⟨pre ++ (v ++ suf), true⟩) ∧
    (∀ k v text : Str,
      noWBMatch k text = true → 2 * k.length < text.length →
      translateWithGlossarySubst text [(k, v)] = ⟨text, false⟩) := by
  constructor
  · intro k v pre w suf hk _hd hw hpre hsuf b1 b2
    have hlen : w.length = k.length := by
      have h := congrArg List.length hw
      simpa [length_lowerL] using h
    unfold translateWithGlossarySubst
    rw [if_neg (by simp)]
    have hsort : sortEntries [(k, v)] = [(k, v)] := rfl
    rw [hsort, substStep_cons]
    by_cases hex : lowerL (pre ++ (w ++ suf)) = lowerL k
    · have h1 := congrArg List.length hex
      rw [length_lowerL, length_lowerL, List.length_append, List.length_append] at h1
      have hp0 : pre = [] := List.length_eq_zero.mp (by omega)
      have hs0 : suf = [] := List.length_eq_zero.mp (by omega)
      subst hp0
      subst hs0
      rw [if_pos hex]
      simp
    · rw [if_neg hex]
      have hwb := wbGo_walk k v w suf hk hw hsuf b2 pre none hpre b1
      have htest : wbTest k (pre ++ (w ++ suf)) = true := hwb.2
      rw [if_pos htest]
      have hrep : wbReplaceAll k v (pre ++ (w ++ suf)) = pre ++ (v ++ suf) := hwb.1
      rw [hrep, substStep_nil]
  · intro k v text hno hlt
    unfold translateWithGlossarySubst
    rw [if_neg (by simp)]
    have hsort : sortEntries [(k, v)] = [(k, v)] := rfl
    rw [hsort, substStep_cons]
    have hex : ¬ (lowerL text = lowerL k) := by
      intro he
      have h := congrArg List.length he
      rw [length_lowerL, length_lowerL] at h
      omega
    rw [if_neg hex]
    have hwbf : wbTest k text = false := wbTestAux_of_noWBMatchAux k text none hno
    rw [if_neg (ne_true_of_eq_false hwbf)]
    have hth : ¬ ((includesB (lowerL k) (lowerL text) && decide (2 * k.length ≥ text.length)) = true) := by
      intro hc
      have h2 := ((Bool.and_eq_true _ _).mp hc).2
      simp at h2
      omega
    rw [if_neg hth]
    exact substStep_nil _ _ _

/-- Witness for C2: the whole-word occurrence of "cat" inside "my cat naps"
is replaced in place, and "category!!!" (where "cat" is embedded and shorter
than half the text) is returned unchanged with no match. -/
theorem c2_witness :
    translateWithGlossarySubst ("my ".data ++ ("cat".data ++ " naps".data))
        [("cat".data, "Katze".data)] =
      ⟨"my ".data ++ ("Katze".data ++ " naps".data), true⟩ ∧
    translateWithGlossarySubst "category!!!".data [("cat".data, "Katze".data)] =
      ⟨"category!!!".data, false⟩ :=
  ⟨c2_word_boundary_amended.1 "cat".data "Katze".data "my ".data "cat".data " naps".data
      (by decide) (by decide) (by decide) (by decide) (by decide) (by decide) (by decide),
    c2_word_boundary_amended.2 "cat".data "Katze".data "category!!!".data
      (by decide) (by decide)⟩

/-- C6, counterexample to the claim as stated: with the index mapping
"cancel" to the translation "Cancel" and the input "Cancel", the exact-match
branch fires, so matched is true, yet the output equals the input: a match
does not guarantee that the text was altered. -/
theorem c6_counterexample :
    translateWithGlossarySubst "Cancel".data [("cancel".data, "Cancel".data)] =
      ⟨"Cancel".data, true⟩ := by
  decide

/-- C6 (amended): the matched flag is sound for change in one direction only:
whenever the engine's output differs from the input text, matched is true
(matched is set exactly by the branches that rewrite the text); a true flag
does not imply the text changed, because a translation may coincide with the
text it replaces. -/
theorem c6_matched_flag_amended (text : Str) (gm : List (Str × Str))
    (h : (translateWithGlossarySubst text gm).translatedText ≠ text) :
    (translateWithGlossarySubst text gm).hasGlossaryTerms = true := by
  cases hm : (translateWithGlossarySubst text gm).hasGlossaryTerms with
  | false =>
    exfalso
    apply h
    unfold translateWithGlossarySubst at hm ⊢
    by_cases he : gm.isEmpty = true
    · rw [if_pos he]
    · rw [if_neg he] at hm ⊢
      exact substStep_unmatched text.length (sortEntries gm) text hm
  | true => rfl

/-- Witness for C6: "Dog" is rewritten to "Hund", so the output differs from
the input and the matched flag is true. -/
theorem c6_witness :
    ("Hund".data : Str) ≠ "Dog".data ∧
    (translateWithGlossarySubst "Dog".data [("dog".data, "Hund".data)]).hasGlossaryTerms = true :=
  ⟨by decide, c6_matched_flag_amended "Dog".data _ (by decide)⟩

/-- C9, counterexample to the claim as stated: no key of the index occurs in
"Cat" as a (case-sensitive) substring, yet the engine's exact match is
case-insensitive, so the text is rewritten to "Katze" with matched true. -/
theorem c9_counterexample :
    includesB "cat".data "Cat".data = false ∧
    translateWithGlossarySubst "Cat".data [("cat".data, "Katze".data)] =
      ⟨"Katze".data, true⟩ := by
  refine ⟨by decide, by decide⟩

/-- C9 (amended): idempotence holds under case-insensitive absence: for every
glossary index and every text in which no term of the index occurs
case-insensitively as a substring, the engine returns the text unchanged with
matched false. -/
theorem c9_idempotence_amended (text : Str) (gm : List (Str × Str))
    (h : ∀ p ∈ gm, includesB (lowerL p.1) (lowerL text) = false) :
    translateWithGlossarySubst text gm = ⟨text, false⟩ := by
  unfold translateWithGlossarySubst
  by_cases he : gm.isEmpty = true
  · rw [if_pos he]
  · rw [if_neg he]
    exact substStep_noOcc text.length (sortEntries gm)
      (fun p hp => h p ((sortEntries_perm gm).mem_iff.mp hp))

/-- Witness for C9: the target-language text "Guten Morgen" contains no
occurrence of the only term "hello", so it is returned unchanged, unmatched. -/
theorem c9_witness :
    translateWithGlossarySubst "Guten Morgen".data [("hello".data, "hallo".data)] =
      ⟨"Guten Morgen".data, false⟩ :=
  c9_idempotence_amended "Guten Morgen".data [("hello".data, "hallo".data)] (by decide)

/-- C10: for every input text and glossary index, if the engine reports
matched false then its output text is identical to the input: the text is
modified only in branches that also set the matched flag. -/
theorem c10_unmatched_identity (text : Str) (gm : List (Str × Str))
    (h : (translateWithGlossarySubst text gm).hasGlossaryTerms = false) :
    (translateWithGlossarySubst text gm).translatedText = text := by
  unfold translateWithGlossarySubst at h ⊢
  by_cases he : gm.isEmpty = true
  · rw [if_pos he]
  · rw [if_neg he] at h ⊢
    exact substStep_unmatched text.length (sortEntries gm) text h

/-- Witness for C10: "sunshine" shares nothing with the only term "cat"; the
engine reports no match and the text comes back identical. -/
theorem c10_witness :
    (translateWithGlossarySubst "sunshine".data [("cat".data, "Katze".data)]).hasGlossaryTerms = false ∧
    (translateWithGlossarySubst "sunshine".data [("cat".data, "Katze".data)]).translatedText =
      "sunshine".data :=
  ⟨by decide, c10_unmatched_identity "sunshine".data [("cat".data, "Katze".data)] (by decide)⟩

/-- C3, counterexample to the claim as stated: a glossary result with
matched true but an empty translatedText (producible, for example, from an
entry whose translation trims to the empty string) leaves finalTranslation
empty, so the falsiness check `if (!finalTranslation)` still invokes the AI
fallback and returns its output instead of the glossary's. -/
theorem c3_counterexample :
    (translateWithGlossarySubst "cancel".data [("cancel".data, [])]).hasGlossaryTerms = true ∧
    handlerCore "cancel".data true true
        (.success (translateWithGlossarySubst "cancel".data [("cancel".data, [])]))
        (.ok (some "KI".data)) =
      ⟨.ok "KI".data, true⟩ :=
  ⟨rfl, rfl⟩

/-- C3 (amended): whenever the glossary path completes successfully with
matched true and a non-empty translatedText, the orchestrator returns the
engine's translatedText as the final output and does not invoke the AI
fallback translator. -/
theorem c3_glossary_short_circuit_amended (text : Str) (r : SubstitutionResult)
    (aiResp : LangdockResponse) (hm : r.hasGlossaryTerms = true)
    (hne : r.translatedText ≠ []) :
    handlerCore text true true (.success r) aiResp = ⟨.ok r.translatedText, false⟩ := by
  have hemp : r.translatedText.isEmpty = false := by
    cases ht : r.translatedText with
    | nil => exact absurd ht hne
    | cons a l => rfl
  simp [handlerCore, hm, hemp]

/-- Witness for C3: a matched, non-empty glossary result is returned as is
and the AI translator is not invoked. -/
theorem c3_witness :
    handlerCore "x".data true true (.success ⟨"Abbrechen".data, true⟩)
        (.ok (some "KI".data)) =
      ⟨.ok "Abbrechen".data, false⟩ :=
  c3_glossary_short_circuit_amended "x".data ⟨"Abbrechen".data, true⟩
    (.ok (some "KI".data)) rfl (by decide)

/-- C4, counterexample to the claim as stated: when the AI call succeeds at
the transport level but returns no content, `translateWithLangdock` silently
falls back to the original input text (`... ?.trim() || text`) and the
exposed operation returns it as a non-error result, instead of failing. -/
theorem c4_counterexample :
    translateWithLangdock "Hello".data (.ok none) = .ok "Hello".data ∧
    (handlerCore "Hello".data false false .failure (.ok none)).result = .ok "Hello".data :=
  ⟨rfl, rfl⟩

/-- C4 (amended): if the AI call fails at the transport level, the operation
fails with the translator's status in the surfaced error; if the call
succeeds but the body has no usable choices array, the content access throws
a TypeError, also surfaced as an error; if the call succeeds with choices but
the content is missing, or present but trimming to the empty string, the
original input text (trimmed and quote-stripped) is returned as a successful,
non-error result. -/
theorem c4_fallback_failure_amended :
    (∀ (text : Str) (status : Nat),
      translateWithLangdock text (.transportError status) =
        .error ("Langdock API error: " ++ toString status)) ∧
    (∀ text : Str,
      translateWithLangdock text .okNoChoices =
        .error "Cannot read properties of undefined (reading 0)") ∧
    (∀ text : Str,
      translateWithLangdock text (.ok none) = .ok (trimL (cleanQuotes text))) ∧
    (∀ (text c : Str), trimL c = [] →
      translateWithLangdock text (.ok (some c)) = .ok (trimL (cleanQuotes text))) := by
  refine ⟨fun text status => rfl, fun text => rfl, fun text => rfl, ?_⟩
  intro text c hc
  have h : translateWithLangdock text (.ok (some c)) =
      .ok (trimL (cleanQuotes (if trimL c = [] then text else trimL c))) := rfl
  rw [h, if_pos hc]

/-- Witness for C4: whitespace-only content trims to empty, and the call then
returns the processed original input text as a non-error result. -/
theorem c4_witness :
    trimL "  ".data = [] ∧
    translateWithLangdock "Hello".data (.ok (some "  ".data)) =
      .ok (trimL (cleanQuotes "Hello".data)) :=
  ⟨by decide,
    c4_fallback_failure_amended.2.2.2 "Hello".data "  ".data (by decide)⟩

/-- C5, counterexample to the claim as stated: a record whose English field
holds the single-space string " " is truthy before normalization, so it is
not discarded; the inserted key is the empty string (empty after trimming),
violating the non-empty-after-normalization invariant. -/
theorem c5_counterexample :
    (([] : Str), "x".data) ∈
      buildGlossaryMap "German"
        [⟨[("English", " ".data), ("Translation", "x".data)]⟩] := by
  decide

/-- C5 (amended): every entry of the glossary map comes from a record whose
first truthy English column and first truthy translation column are non-empty
BEFORE normalization; the key is the trimmed lowercased English value and the
value the trimmed translation, either of which may be empty when the raw
value is whitespace-only.  Records lacking a truthy value on either side
contribute no entry. -/
theorem c5_normalization_amended (lang : String) (records : List GlossaryRecord)
    (k v : Str) (h : (k, v) ∈ buildGlossaryMap lang records) :
    ∃ r ∈ records, ∃ e t : Str,
      firstTruthy r englishColumns = some e ∧ e ≠ [] ∧
      firstTruthy r (translationColumns lang) = some t ∧ t ≠ [] ∧
      k = trimL (lowerL e) ∧ v = trimL t := by
  obtain ⟨r, hr, hn⟩ := mem_buildGlossaryMap h
  obtain ⟨e, t, h1, h2, h3, h4, h5, h6⟩ := normalizeRecord_inv hn
  exact ⟨r, hr, e, t, h1, h2, h3, h4, h5, h6⟩

/-- Witness for C5: the entry ("cancel", "Abbrechen") built from a record
with raw values "Cancel " and " Abbrechen " traces back to that record's
truthy columns. -/
theorem c5_witness :
    (("cancel".data, "Abbrechen".data) ∈
      buildGlossaryMap "German"
        [⟨[("English", "Cancel ".data), ("Translation", " Abbrechen ".data)]⟩]) ∧
    (∃ r ∈ [(⟨[("English", "Cancel ".data), ("Translation", " Abbrechen ".data)]⟩ : GlossaryRecord)],
      ∃ e t : Str,
        firstTruthy r englishColumns = some e ∧ e ≠ [] ∧
        firstTruthy r (translationColumns "German") = some t ∧ t ≠ [] ∧
        "cancel".data = trimL (lowerL e) ∧ "Abbrechen".data = trimL t) :=
  ⟨by decide, c5_normalization_amended "German" _ "cancel".data "Abbrechen".data (by decide)⟩

/-- For any real candidate list, the glossary path over it fails exactly when
every candidate's fetch fails. -/
theorem resolveAndSubst_none_iff (fetch : String → Option (List GlossaryRecord))
    (text : Str) (lang : String) (cs : List String) :
    resolveAndSubst text lang fetch cs = none ↔ ∀ c ∈ cs, fetch c = none := by
  unfold resolveAndSubst
  cases ht : (tryTables fetch cs).1 with
  | none =>
    constructor
    · intro _
      exact (tryTables_none_iff fetch cs).mp ht
    · intro _
      rfl
  | some p =>
    obtain ⟨recs, nm⟩ := p
    constructor
    · intro hc
      exact Option.noConfusion hc
    · intro hall
      have h2 := (tryTables_none_iff fetch cs).mpr hall
      rw [ht] at h2
      exact Option.noConfusion h2

/-- C7: the table resolver tries candidate names strictly in declared order
(the fetched names are a prefix of the candidate list, one fetch per
candidate), accepts the first transport-level success without fetching any
remaining candidate (on success the candidates split around the accepted name,
everything before it failed, and exactly those names plus the accepted one
were fetched); for every language whose lookup yields a real candidate list
the composed glossary path fails with GlossaryUnavailable exactly when every
candidate's fetch fails, and for a language whose lookup hits an inherited
prototype member the glossary path fails before issuing any fetch. -/
theorem c7_resolver_first_success (fetch : String → Option (List GlossaryRecord))
    (cs : List String) :
    (∃ rest2, cs = (tryTables fetch cs).2 ++ rest2) ∧
    (∀ (d : List GlossaryRecord) (n : String),
      (tryTables fetch cs).1 = some (d, n) →
      fetch n = some d ∧
        ∃ pre suf, cs = pre ++ n :: suf ∧ (∀ m2 ∈ pre, fetch m2 = none) ∧
          (tryTables fetch cs).2 = pre ++ [n]) ∧
    ((tryTables fetch cs).1 = none ↔ ∀ c ∈ cs, fetch c = none) ∧
    (∀ (text : Str) (lang : String) (cs2 : List String),
      possibleTableNames lang = some cs2 →
      (translateWithGlossary text lang fetch = none ↔ ∀ c ∈ cs2, fetch c = none)) ∧
    (∀ (text : Str) (lang : String),
      possibleTableNames lang = none →
      translateWithGlossary text lang fetch = none ∧
        glossaryFetchesIssued lang fetch = []) := by
  refine ⟨tryTables_tried fetch cs, tryTables_success fetch cs,
    tryTables_none_iff fetch cs, ?_, ?_⟩
  · intro text lang cs2 hcs
    unfold translateWithGlossary
    rw [hcs]
    exact resolveAndSubst_none_iff fetch text lang cs2
  · intro text lang hnone
    constructor
    · unfold translateWithGlossary
      rw [hnone]
    · unfold glossaryFetchesIssued
      rw [hnone]

/-- Witness for C7: with a fetch oracle succeeding only for "German" (with
zero records), the resolver over the German candidates fetches the first
candidate, fails, fetches "German", succeeds, and stops: the fetched names
are exactly ["German translations", "German"].  And for the prototype-member
language name "toString" the glossary path fails without fetching anything. -/
theorem c7_witness :
    (fetchGermanOnly "German" = some [] ∧
      ∃ pre suf,
        ["German translations", "German", "DE", "Deutsch"] = pre ++ "German" :: suf ∧
        (∀ m2 ∈ pre, fetchGermanOnly m2 = none) ∧
        (tryTables fetchGermanOnly
          ["German translations", "German", "DE", "Deutsch"]).2 = pre ++ ["German"]) ∧
    (translateWithGlossary "x".data "toString" fetchGermanOnly = none ∧
      glossaryFetchesIssued "toString" fetchGermanOnly = []) :=
  ⟨(c7_resolver_first_success fetchGermanOnly
      ["German translations", "German", "DE", "Deutsch"]).2.1 [] "German" (by decide),
    (c7_resolver_first_success fetchGermanOnly
      ["German translations", "German", "DE", "Deutsch"]).2.2.2.2 "x".data "toString"
      (by decide)⟩

/-- C8, counterexample to the claim as stated: "toString" is not one of the
recognized language names, yet the JavaScript lookup finds the inherited,
truthy `Object.prototype.toString` member, so the single-element fallback is
never taken: the candidate list is not ["toString"] (iterating the inherited
function throws before any fetch). -/
theorem c8_counterexample :
    tableNames "toString" = none ∧
    possibleTableNames "toString" ≠ some ["toString"] ∧
    possibleTableNames "toString" = none := by
  refine ⟨by decide, by decide, by decide⟩

/-- C8 (amended): for every targetLanguage string outside the closed set of
eight recognized language names that is not the name of an inherited
Object.prototype member, the candidate list is exactly the single-element
list holding the literal targetLanguage string. -/
theorem c8_unrecognized_language (lang : String)
    (h1 : lang ≠ "German") (h2 : lang ≠ "Spanish") (h3 : lang ≠ "Dutch")
    (h4 : lang ≠ "Italian") (h5 : lang ≠ "Polish") (h6 : lang ≠ "Portuguese")
    (h7 : lang ≠ "Swedish") (h8 : lang ≠ "Finnish")
    (h9 : lang ∉ objectProtoKeys) :
    possibleTableNames lang = some [lang] := by
  have ht : tableNames lang = none := by
    unfold tableNames
    rw [if_neg h1, if_neg h2, if_neg h3, if_neg h4, if_neg h5, if_neg h6, if_neg h7, if_neg h8]
  unfold possibleTableNames
  rw [ht]
  show (if lang ∈ objectProtoKeys then none else some [lang]) = some [lang]
  rw [if_neg h9]

/-- Witness for C8: the unrecognized, non-prototype language "Klingon" yields
the single candidate ["Klingon"]. -/
theorem c8_witness : possibleTableNames "Klingon" = some ["Klingon"] :=
  c8_unrecognized_language "Klingon" (by decide) (by decide) (by decide) (by decide)
    (by decide) (by decide) (by decide) (by decide) (by decide)
